import Mathlib

/-
Verification of the driven, damped nonlinear pendulum notebook
(08_Chaotic_Pendulum): a shallow embedding in Lean 4 of the
semi-implicit Euler integrator, the stroboscopic (Poincare) index
loop, and the Lyapunov-fit data pipeline, with theorems settling the
behavioural claims about them.  Floating-point numbers are modelled
by real numbers; the Python while-loop is modelled with explicit fuel
(the loop has run its course exactly when the result is "some").
-/

namespace ChaoticPendulum

open Real List

/-- Gravitational acceleration, as imported from scipy.constants and used
as a global constant by the euler integrator. -/
def g : ℝ := 9.80665

/-- The in-place angle wrap of the integrator: the source applies, in
sequence, "if th < -pi: th += 2*pi" and then "if th >= pi: th -= 2*pi"
to the freshly computed angle. -/
noncomputable def wrap (θ : ℝ) : ℝ :=
  let a := if θ < -π then θ + 2 * π else θ
  if π ≤ a then a - 2 * π else a

/-- One iteration of the integration loop of euler: from state (θ[n], ω[n])
and the time value t[n], compute ω[n+1] first (using the old angle) and then
θ[n+1] from the new velocity, wrapping the angle. -/
noncomputable def eulerStep (FD ℓ γ ΩD Δt tn : ℝ) (s : ℝ × ℝ) : ℝ × ℝ :=
  let ω1 := s.2 + (-(g / ℓ) * Real.sin s.1 - γ * s.2 + FD * Real.sin (ΩD * tn)) * Δt
  (wrap (s.1 + ω1 * Δt), ω1)

/-- The integration loop of euler: the list argument carries the time values
t[0] .. t[N-2] at which steps are taken (the loop "for n in range(t.size-1)");
the returned list holds the N successive states. -/
noncomputable def eulerLoop (FD ℓ γ ΩD Δt : ℝ) : List ℝ → ℝ × ℝ → List (ℝ × ℝ)
  | [], s => [s]
  | tn :: rest, s => s :: eulerLoop FD ℓ γ ΩD Δt rest (eulerStep FD ℓ γ ΩD Δt tn s)

/-- The euler integrator.  The step size is read once as t[1]-t[0]; a grid
with fewer than two entries makes that read fail (an IndexError in the
source), modelled by none.  Otherwise the loop runs over t[0] .. t[N-2]
starting from (θ0, ω0) and the θ and ω sequences are returned. -/
noncomputable def euler (t : List ℝ) (FD ℓ θ0 ω0 γ ΩD : ℝ) :
    Option (List ℝ × List ℝ) :=
  match t with
  | t0 :: t1 :: _ =>
      let traj := eulerLoop FD ℓ γ ΩD (t1 - t0) t.dropLast (θ0, ω0)
      some (traj.map Prod.fst, traj.map Prod.snd)
  | _ => none

/-- Python int() conversion: truncation toward zero, i.e. floor for
nonnegative arguments and ceiling for negative ones. -/
noncomputable def pyInt (x : ℝ) : ℤ :=
  if 0 ≤ x then ⌊x⌋ else ⌈x⌉

/-- The candidate stroboscopic index for counter n, exactly as computed
by the source: m = int(2.0*pi*n/(t[1]*OmegaD) + 0.5).  Note that the
divisor uses the raw grid value t[1], not the spacing t[1]-t[0]. -/
noncomputable def strobeM (t1 ΩD : ℝ) (n : ℕ) : ℤ :=
  pyInt (2 * π * n / (t1 * ΩD) + 1 / 2)

/-- The "while True" index loop of the Poincare-section cell, with explicit
fuel: append m when 1 < m < len, break (returning the collected list) when
m >= len, and otherwise continue with n+1.  none means the fuel ran out
before the loop broke. -/
noncomputable def strobeLoop (t1 ΩD : ℝ) (len : ℕ) : ℕ → ℕ → Option (List ℤ)
  | 0, _ => none
  | fuel + 1, n =>
      let m := strobeM t1 ΩD n
      if 1 < m ∧ m < (len : ℤ) then
        (strobeLoop t1 ΩD len fuel (n + 1)).map (fun L => m :: L)
      else if (len : ℤ) ≤ m then
        some []
      else
        strobeLoop t1 ΩD len fuel (n + 1)

/-- The stroboscopic sampler: the source reads t[1] (an IndexError when the
grid has fewer than two entries, modelled by none) and len(t), and runs the
index loop starting from n = 0. -/
noncomputable def inPhase (t : List ℝ) (ΩD : ℝ) (fuel : ℕ) : Option (List ℤ) :=
  match t with
  | _ :: t1 :: _ => strobeLoop t1 ΩD t.length fuel 0
  | _ => none

/-- The index loop diverges on the given input: no amount of fuel makes it
reach its break statement. -/
def strobeDiverges (t : List ℝ) (ΩD : ℝ) : Prop :=
  ∀ fuel, inPhase t ΩD fuel = none

/-- scipy.signal.argrelextrema with comparator np.greater (order 1): the
indices whose entry is strictly greater than both neighbours; boundary
indices are never extrema. -/
noncomputable def argrelmax (xs : List ℝ) : List ℕ :=
  (List.range xs.length).filter fun n =>
    decide (1 ≤ n) && decide (n + 1 < xs.length) &&
      decide (xs.getD (n - 1) 0 < xs.getD n 0) &&
      decide (xs.getD (n + 1) 0 < xs.getD n 0)

/-- The Lyapunov-fit pipeline of the source cell: compute the elementwise
absolute angle difference, take logs, locate the strict local maxima, and
unconditionally hand the (time, log-difference) pairs at those maxima to
the external curve-fitting primitive, whose result is returned as is. -/
noncomputable def lyapFit (t θa θb : List ℝ) (fit : List (ℝ × ℝ) → ℝ × ℝ) :
    ℝ × ℝ :=
  let dθ := List.zipWith (fun a b => |a - b|) θa θb
  let logd := dθ.map Real.log
  let ind := argrelmax logd
  fit (ind.map fun n => (t.getD n 0, logd.getD n 0))

/-! ### Basic facts about the integrator -/

lemma eulerLoop_length (FD ℓ γ ΩD Δt : ℝ) (ts : List ℝ) (s : ℝ × ℝ) :
    (eulerLoop FD ℓ γ ΩD Δt ts s).length = ts.length + 1 := by
  induction ts generalizing s with
  | nil => rfl
  | cons tn rest ih => simp [eulerLoop, ih]

lemma eulerLoop_getD_zero (FD ℓ γ ΩD Δt : ℝ) (ts : List ℝ) (s : ℝ × ℝ) :
    (eulerLoop FD ℓ γ ΩD Δt ts s).getD 0 (0, 0) = s := by
  cases ts <;> simp [eulerLoop]

lemma eulerLoop_getD_succ (FD ℓ γ ΩD Δt : ℝ) :
    ∀ (n : ℕ) (ts : List ℝ) (s : ℝ × ℝ), n < ts.length →
      (eulerLoop FD ℓ γ ΩD Δt ts s).getD (n + 1) (0, 0) =
        eulerStep FD ℓ γ ΩD Δt (ts.getD n 0)
          ((eulerLoop FD ℓ γ ΩD Δt ts s).getD n (0, 0)) := by
  intro n
  induction n with
  | zero =>
    intro ts s h
    cases ts with
    | nil => simp at h
    | cons tn rest =>
      simp only [eulerLoop, List.getD_cons_succ, List.getD_cons_zero,
        eulerLoop_getD_zero]
  | succ k ih =>
    intro ts s h
    cases ts with
    | nil => simp at h
    | cons tn rest =>
      have hk : k < rest.length := by simpa using Nat.lt_of_succ_lt_succ h
      simp only [eulerLoop, List.getD_cons_succ]
      exact ih rest _ hk

lemma getD_map_fst (l : List (ℝ × ℝ)) (n : ℕ) :
    (l.map Prod.fst).getD n 0 = (l.getD n (0, 0)).1 := by
  rw [List.getD_eq_getElem?_getD, List.getD_eq_getElem?_getD, List.getElem?_map]
  cases l[n]? <;> rfl

lemma getD_map_snd (l : List (ℝ × ℝ)) (n : ℕ) :
    (l.map Prod.snd).getD n 0 = (l.getD n (0, 0)).2 := by
  rw [List.getD_eq_getElem?_getD, List.getD_eq_getElem?_getD, List.getElem?_map]
  cases l[n]? <;> rfl

lemma getD_dropLast (l : List ℝ) (n : ℕ) (h : n + 1 < l.length) :
    l.dropLast.getD n 0 = l.getD n 0 := by
  have h1 : n < l.dropLast.length := by
    simp only [List.length_dropLast]; omega
  have h2 : n < l.length := by omega
  rw [List.getD_eq_getElem?_getD, List.getD_eq_getElem?_getD,
    List.getElem?_eq_getElem h1, List.getElem?_eq_getElem h2]
  simp [List.getElem_dropLast]

/-- The full behaviour of euler on a grid with at least two points: the
two returned sequences have the same length as the grid, start at the
initial conditions, and obey the semi-implicit update at every step,
with the step size read once as t[1]-t[0]. -/
lemma euler_unfold (t : List ℝ) (FD ℓ θ0 ω0 γ ΩD : ℝ) (h2 : 2 ≤ t.length) :
    ∃ θs ωs, euler t FD ℓ θ0 ω0 γ ΩD = some (θs, ωs) ∧
      θs.length = t.length ∧ ωs.length = t.length ∧
      θs.getD 0 0 = θ0 ∧ ωs.getD 0 0 = ω0 ∧
      ∀ n, n + 1 < t.length →
        ωs.getD (n + 1) 0 = ωs.getD n 0 +
          (-(g / ℓ) * Real.sin (θs.getD n 0) - γ * ωs.getD n 0 +
            FD * Real.sin (ΩD * t.getD n 0)) * (t.getD 1 0 - t.getD 0 0) ∧
        θs.getD (n + 1) 0 =
          wrap (θs.getD n 0 + ωs.getD (n + 1) 0 * (t.getD 1 0 - t.getD 0 0)) := by
  match t with
  | t0 :: t1 :: rest =>
  set ts := (t0 :: t1 :: rest).dropLast with hts
  set A := eulerLoop FD ℓ γ ΩD (t1 - t0) ts (θ0, ω0) with hA
  have hlen : A.length = (t0 :: t1 :: rest).length := by
    rw [hA, eulerLoop_length, hts]
    simp [List.length_dropLast]
  refine ⟨A.map Prod.fst, A.map Prod.snd, rfl, ?_, ?_, ?_, ?_, ?_⟩
  · simpa using hlen
  · simpa using hlen
  · rw [getD_map_fst, hA, eulerLoop_getD_zero]
  · rw [getD_map_snd, hA, eulerLoop_getD_zero]
  · intro n hn
    have hnts : n < ts.length := by
      rw [hts]; simp only [List.length_dropLast]
      simpa using hn
    have hstep := eulerLoop_getD_succ FD ℓ γ ΩD (t1 - t0) n ts (θ0, ω0) hnts
    rw [← hA] at hstep
    have hgd : ts.getD n 0 = (t0 :: t1 :: rest).getD n 0 := by
      rw [hts]; exact getD_dropLast _ _ hn
    have hΔ : (t0 :: t1 :: rest).getD 1 0 - (t0 :: t1 :: rest).getD 0 0 = t1 - t0 := by
      simp
    simp only [getD_map_fst, getD_map_snd]
    rw [hΔ, hstep, hgd]
    constructor
    · simp [eulerStep]
    · simp [eulerStep]

/-! ### The angle wrap -/

lemma wrap_mem (θ adv : ℝ) (h1 : -π ≤ θ) (h2 : θ < π) (h3 : |adv| < 2 * π) :
    -π ≤ wrap (θ + adv) ∧ wrap (θ + adv) < π := by
  have hpi := Real.pi_pos
  obtain ⟨ha1, ha2⟩ := abs_lt.mp h3
  simp only [wrap]
  split_ifs with hb hc hd <;> constructor <;> linarith

lemma wrap_eq_self (θ : ℝ) (h1 : -π ≤ θ) (h2 : θ < π) : wrap θ = θ := by
  simp only [wrap]
  rw [if_neg (not_lt.mpr h1), if_neg (not_le.mpr h2)]

/-- C1: on every grid of length at least two with uniform spacing
dt = t[1]-t[0], euler returns two sequences of exactly the grid length
starting at the initial conditions, with the velocity updated from the old
angle and the angle then updated from the new velocity and wrapped, in that
order. -/
theorem euler_semi_implicit_spec (t : List ℝ) (FD ℓ θ0 ω0 γ ΩD : ℝ)
    (h2 : 2 ≤ t.length)
    (hu : ∀ n, n + 1 < t.length →
      t.getD (n + 1) 0 - t.getD n 0 = t.getD 1 0 - t.getD 0 0) :
    ∃ θs ωs, euler t FD ℓ θ0 ω0 γ ΩD = some (θs, ωs) ∧
      θs.length = t.length ∧ ωs.length = t.length ∧
      θs.getD 0 0 = θ0 ∧ ωs.getD 0 0 = ω0 ∧
      ∀ n, n + 1 < t.length →
        ωs.getD (n + 1) 0 = ωs.getD n 0 +
          (-(g / ℓ) * Real.sin (θs.getD n 0) - γ * ωs.getD n 0 +
            FD * Real.sin (ΩD * t.getD n 0)) * (t.getD 1 0 - t.getD 0 0) ∧
        θs.getD (n + 1) 0 =
          wrap (θs.getD n 0 + ωs.getD (n + 1) 0 * (t.getD 1 0 - t.getD 0 0)) :=
  euler_unfold t FD ℓ θ0 ω0 γ ΩD h2

/-- Witness for C1 at the uniform grid [0, 1, 2]. -/
theorem euler_semi_implicit_spec_witness :
    2 ≤ ([0, 1, 2] : List ℝ).length ∧
      ∃ θs ωs, euler [0, 1, 2] 1 1 (1 / 2) 0 (1 / 4) 1 = some (θs, ωs) ∧
        θs.length = ([0, 1, 2] : List ℝ).length ∧
        ωs.length = ([0, 1, 2] : List ℝ).length ∧
        θs.getD 0 0 = 1 / 2 ∧ ωs.getD 0 0 = 0 ∧
        ∀ n, n + 1 < ([0, 1, 2] : List ℝ).length →
          ωs.getD (n + 1) 0 = ωs.getD n 0 +
            (-(g / 1) * Real.sin (θs.getD n 0) - (1 / 4) * ωs.getD n 0 +
              1 * Real.sin (1 * ([0, 1, 2] : List ℝ).getD n 0)) *
              (([0, 1, 2] : List ℝ).getD 1 0 - ([0, 1, 2] : List ℝ).getD 0 0) ∧
          θs.getD (n + 1) 0 = wrap (θs.getD n 0 + ωs.getD (n + 1) 0 *
            (([0, 1, 2] : List ℝ).getD 1 0 - ([0, 1, 2] : List ℝ).getD 0 0)) :=
  ⟨by simp, euler_semi_implicit_spec [0, 1, 2] 1 1 (1 / 2) 0 (1 / 4) 1 (by simp)
    (by intro n hn
        have hn2 : n < 2 := by simp at hn; omega
        interval_cases n <;> norm_num)⟩

/-- C10: on every grid of length at least two, uniform or not, euler reads
its step size once as t[1]-t[0] and uses that same value at every step;
the later spacings are never read (the time values t[n] enter only through
the driving term), and no error is raised for non-uniform grids. -/
theorem euler_uses_first_gap_only (t : List ℝ) (FD ℓ θ0 ω0 γ ΩD : ℝ)
    (h2 : 2 ≤ t.length) :
    ∃ θs ωs, euler t FD ℓ θ0 ω0 γ ΩD = some (θs, ωs) ∧
      θs.length = t.length ∧ ωs.length = t.length ∧
      θs.getD 0 0 = θ0 ∧ ωs.getD 0 0 = ω0 ∧
      ∀ n, n + 1 < t.length →
        ωs.getD (n + 1) 0 = ωs.getD n 0 +
          (-(g / ℓ) * Real.sin (θs.getD n 0) - γ * ωs.getD n 0 +
            FD * Real.sin (ΩD * t.getD n 0)) * (t.getD 1 0 - t.getD 0 0) ∧
        θs.getD (n + 1) 0 =
          wrap (θs.getD n 0 + ωs.getD (n + 1) 0 * (t.getD 1 0 - t.getD 0 0)) :=
  euler_unfold t FD ℓ θ0 ω0 γ ΩD h2

/-- Witness for C10 at the non-uniform grid [0, 1, 5]: the step recurrence
still uses t[1]-t[0] = 1 everywhere and the call succeeds. -/
theorem euler_uses_first_gap_only_witness :
    2 ≤ ([0, 1, 5] : List ℝ).length ∧
      ∃ θs ωs, euler [0, 1, 5] 1 1 (1 / 2) 0 (1 / 4) 1 = some (θs, ωs) ∧
        θs.length = ([0, 1, 5] : List ℝ).length ∧
        ωs.length = ([0, 1, 5] : List ℝ).length ∧
        θs.getD 0 0 = 1 / 2 ∧ ωs.getD 0 0 = 0 ∧
        ∀ n, n + 1 < ([0, 1, 5] : List ℝ).length →
          ωs.getD (n + 1) 0 = ωs.getD n 0 +
            (-(g / 1) * Real.sin (θs.getD n 0) - (1 / 4) * ωs.getD n 0 +
              1 * Real.sin (1 * ([0, 1, 5] : List ℝ).getD n 0)) *
              (([0, 1, 5] : List ℝ).getD 1 0 - ([0, 1, 5] : List ℝ).getD 0 0) ∧
          θs.getD (n + 1) 0 = wrap (θs.getD n 0 + ωs.getD (n + 1) 0 *
            (([0, 1, 5] : List ℝ).getD 1 0 - ([0, 1, 5] : List ℝ).getD 0 0)) :=
  ⟨by simp, euler_uses_first_gap_only [0, 1, 5] 1 1 (1 / 2) 0 (1 / 4) 1 (by simp)⟩

/-- C8: if the incoming angle lies in [-pi, pi) and the single-step angle
advance dt*omega[n+1] computed by the step is smaller than 2*pi in
magnitude, then the single conditional pair of the wrap puts the new angle
back into [-pi, pi). -/
theorem eulerStep_wrap_invariant (FD ℓ γ ΩD Δt tn : ℝ) (s : ℝ × ℝ)
    (hθ : -π ≤ s.1 ∧ s.1 < π)
    (hadv : |(eulerStep FD ℓ γ ΩD Δt tn s).2 * Δt| < 2 * π) :
    -π ≤ (eulerStep FD ℓ γ ΩD Δt tn s).1 ∧ (eulerStep FD ℓ γ ΩD Δt tn s).1 < π := by
  have h1 : (eulerStep FD ℓ γ ΩD Δt tn s).1 =
      wrap (s.1 + (eulerStep FD ℓ γ ΩD Δt tn s).2 * Δt) := by
    simp [eulerStep]
  rw [h1]
  exact wrap_mem s.1 _ hθ.1 hθ.2 hadv

/-- Witness for C8 at a step with zero step size from the state (0, 0). -/
theorem eulerStep_wrap_invariant_witness :
    (-π ≤ ((0 : ℝ), (0 : ℝ)).1 ∧ ((0 : ℝ), (0 : ℝ)).1 < π) ∧
      |(eulerStep 1 1 (1 / 4) 1 0 0 ((0 : ℝ), (0 : ℝ))).2 * 0| < 2 * π ∧
      (-π ≤ (eulerStep 1 1 (1 / 4) 1 0 0 ((0 : ℝ), (0 : ℝ))).1 ∧
        (eulerStep 1 1 (1 / 4) 1 0 0 ((0 : ℝ), (0 : ℝ))).1 < π) := by
  have hpi := Real.pi_pos
  have hθ : -π ≤ ((0 : ℝ), (0 : ℝ)).1 ∧ ((0 : ℝ), (0 : ℝ)).1 < π := by
    constructor <;> simp <;> linarith
  have hadv : |(eulerStep 1 1 (1 / 4) 1 0 0 ((0 : ℝ), (0 : ℝ))).2 * 0| < 2 * π := by
    rw [mul_zero, abs_zero]; linarith
  exact ⟨hθ, hadv, eulerStep_wrap_invariant 1 1 (1 / 4) 1 0 0 ((0 : ℝ), (0 : ℝ)) hθ hadv⟩

/-! ### Degenerate grids and the range of the angle sequence -/

lemma eulerLoop_const (FD ℓ γ ΩD : ℝ) (ts : List ℝ) (θ0 ω0 : ℝ)
    (hθ : -π ≤ θ0 ∧ θ0 < π) :
    eulerLoop FD ℓ γ ΩD 0 ts (θ0, ω0) = List.replicate (ts.length + 1) (θ0, ω0) := by
  induction ts with
  | nil => simp [eulerLoop]
  | cons tn rest ih =>
    have hstep : eulerStep FD ℓ γ ΩD 0 tn (θ0, ω0) = (θ0, ω0) := by
      simp [eulerStep, wrap_eq_self θ0 hθ.1 hθ.2]
    simp only [eulerLoop, hstep, ih, List.length_cons]
    simp [List.replicate_succ]

/-- With a zero first gap (t[1] = t[0]) and an in-range initial angle, euler
silently returns the constant trajectory. -/
lemma euler_const (t0 : ℝ) (rest : List ℝ) (FD ℓ θ0 ω0 γ ΩD : ℝ)
    (hθ : -π ≤ θ0 ∧ θ0 < π) :
    euler (t0 :: t0 :: rest) FD ℓ θ0 ω0 γ ΩD =
      some (List.replicate (rest.length + 2) θ0,
        List.replicate (rest.length + 2) ω0) := by
  simp only [euler]
  rw [sub_self, eulerLoop_const FD ℓ γ ΩD _ θ0 ω0 hθ]
  simp [List.map_replicate]

/-- C7 counterexample: for the degenerate grid [0, 0] (two points, zero
spacing) euler raises no error at all: it silently returns the all-zero
trajectory, exactly what the claim says never happens. -/
theorem euler_degenerate_grid_counterexample :
    euler [0, 0] 1 1 0 0 (1 / 4) 1 = some ([0, 0], [0, 0]) := by
  have hpi := Real.pi_pos
  have h := euler_const 0 ([] : List ℝ) 1 1 0 0 (1 / 4) 1 ⟨by linarith, hpi⟩
  simpa using h

/-- C7 amended: euler performs no input validation.  A grid with fewer than
two points fails only with an untyped index error (reading t[1]), and a
grid with zero spacing (t[1] = t[0]) silently returns a constant
trajectory instead of failing. -/
theorem euler_no_input_validation :
    (∀ (t : List ℝ) (FD ℓ θ0 ω0 γ ΩD : ℝ), t.length < 2 →
      euler t FD ℓ θ0 ω0 γ ΩD = none) ∧
    (∀ (t0 : ℝ) (rest : List ℝ) (FD ℓ θ0 ω0 γ ΩD : ℝ), -π ≤ θ0 → θ0 < π →
      euler (t0 :: t0 :: rest) FD ℓ θ0 ω0 γ ΩD =
        some (List.replicate (rest.length + 2) θ0,
          List.replicate (rest.length + 2) ω0)) := by
  constructor
  · intro t FD ℓ θ0 ω0 γ ΩD h
    match t with
    | [] => rfl
    | [a] => rfl
    | a :: b :: r =>
      simp only [List.length_cons] at h
      exact absurd h (by omega)
  · intro t0 rest FD ℓ θ0 ω0 γ ΩD h1 h2
    exact euler_const t0 rest FD ℓ θ0 ω0 γ ΩD ⟨h1, h2⟩

/-- Witness for C7 amended: a one-point grid yields none, and a zero-gap
two-point grid yields the constant trajectory. -/
theorem euler_no_input_validation_witness :
    euler [(5 : ℝ)] 1 1 0 0 (1 / 4) 1 = none ∧
      euler [1, 1] 2 1 0 3 (1 / 4) 1 = some ([0, 0], [3, 3]) := by
  have hpi := Real.pi_pos
  constructor
  · exact euler_no_input_validation.1 [5] 1 1 0 0 (1 / 4) 1 (by simp)
  · have h := euler_no_input_validation.2 1 ([] : List ℝ) 2 1 0 3 (1 / 4) 1
      (by linarith) hpi
    simpa using h

/-- C2 counterexample: euler stores the initial angle without wrapping it,
so with θ0 = 4 the first entry of the returned angle sequence is 4, which
is not below pi and hence not in [-pi, pi). -/
theorem euler_theta0_unwrapped_counterexample :
    (euler [0, 1] 0 1 4 0 0 1).map (fun p => p.1.getD 0 0) = some 4 ∧
      ¬ ((4 : ℝ) < π) := by
  constructor
  · simp [euler, eulerLoop]
  · have h := Real.pi_lt_d2
    intro hc
    linarith

/-- C2 amended: the angle entries of index at least 1 lie in [-pi, pi)
provided the initial angle already does and every single-step advance
dt*omega[n+1] stays below 2*pi in magnitude; the initial entry obeys the
range only because it is assumed to, since euler never wraps it. -/
theorem euler_theta_range_conditional (t : List ℝ) (FD ℓ θ0 ω0 γ ΩD : ℝ)
    (θs ωs : List ℝ) (h2 : 2 ≤ t.length)
    (heq : euler t FD ℓ θ0 ω0 γ ΩD = some (θs, ωs))
    (hθ0 : -π ≤ θ0 ∧ θ0 < π)
    (hadv : ∀ n, n + 1 < t.length →
      |ωs.getD (n + 1) 0 * (t.getD 1 0 - t.getD 0 0)| < 2 * π) :
    ∀ n, n < t.length → -π ≤ θs.getD n 0 ∧ θs.getD n 0 < π := by
  obtain ⟨θs2, ωs2, heq2, hl1, hl2, hh1, hh2, hrec⟩ :=
    euler_unfold t FD ℓ θ0 ω0 γ ΩD h2
  have hpair := Option.some.inj (heq.symm.trans heq2)
  have hθeq : θs = θs2 := congrArg Prod.fst hpair
  have hωeq : ωs = ωs2 := congrArg Prod.snd hpair
  subst hθeq hωeq
  intro n
  induction n with
  | zero => intro _; rw [hh1]; exact hθ0
  | succ k ih =>
    intro hk
    have hi := ih (by omega)
    obtain ⟨hω, hθ⟩ := hrec k hk
    rw [hθ]
    exact wrap_mem _ _ hi.1 hi.2 (hadv k hk)

/-- Witness for C2 amended on the zero-gap grid [0, 0] with θ0 = 0, ω0 = 5:
every hypothesis holds and every angle entry is in range. -/
theorem euler_theta_range_conditional_witness :
    euler [0, 0] 1 1 0 5 0 1 = some ([0, 0], [5, 5]) ∧
      (∀ n, n < ([0, 0] : List ℝ).length →
        -π ≤ ([0, 0] : List ℝ).getD n 0 ∧ ([0, 0] : List ℝ).getD n 0 < π) := by
  have hpi := Real.pi_pos
  have heq : euler [0, 0] 1 1 0 5 0 1 = some ([0, 0], [5, 5]) := by
    have h := euler_const 0 ([] : List ℝ) 1 1 0 5 0 1 ⟨by linarith, hpi⟩
    simpa using h
  have hadv : ∀ n, n + 1 < ([0, 0] : List ℝ).length →
      |([5, 5] : List ℝ).getD (n + 1) 0 *
        (([0, 0] : List ℝ).getD 1 0 - ([0, 0] : List ℝ).getD 0 0)| < 2 * π := by
    intro n hn
    simp
    linarith
  exact ⟨heq, euler_theta_range_conditional [0, 0] 1 1 0 5 0 1 [0, 0] [5, 5]
    (by simp) heq ⟨by linarith, hpi⟩ hadv⟩

/-! ### Arithmetic facts about the stroboscopic index formula -/

lemma pyInt_of_nonneg (x : ℝ) (h : 0 ≤ x) : pyInt x = ⌊x⌋ := if_pos h

lemma pyInt_le_zero (x : ℝ) (h : x ≤ 1 / 2) : pyInt x ≤ 0 := by
  unfold pyInt
  split_ifs with h0
  · have hf : ⌊x⌋ < 1 := by
      rw [Int.floor_lt]
      push_cast
      linarith
    omega
  · rw [Int.ceil_le]
    push_cast
    linarith

lemma strobeM_eq_floor (t1 ΩD : ℝ) (h : 0 < t1 * ΩD) (n : ℕ) :
    strobeM t1 ΩD n = ⌊2 * π * n / (t1 * ΩD) + 1 / 2⌋ := by
  apply pyInt_of_nonneg
  have hnum : (0 : ℝ) ≤ 2 * π * n := by positivity
  have hq := div_nonneg hnum h.le
  linarith

lemma strobeM_le_zero (t1 ΩD : ℝ) (h : t1 * ΩD < 0) (n : ℕ) :
    strobeM t1 ΩD n ≤ 0 := by
  apply pyInt_le_zero
  have hnum : (0 : ℝ) ≤ 2 * π * n := by positivity
  have hq : 2 * π * n / (t1 * ΩD) ≤ 0 :=
    div_nonpos_iff.mpr (Or.inl ⟨hnum, h.le⟩)
  linarith

lemma strobeM_mono (t1 ΩD : ℝ) (h : 0 < t1 * ΩD) {a b : ℕ} (hab : a ≤ b) :
    strobeM t1 ΩD a ≤ strobeM t1 ΩD b := by
  rw [strobeM_eq_floor t1 ΩD h, strobeM_eq_floor t1 ΩD h]
  apply Int.floor_le_floor
  have hcast : (a : ℝ) ≤ b := by exact_mod_cast hab
  have hpi := Real.pi_pos
  gcongr

lemma strobeM_bound (t1 ΩD : ℝ) (h1 : 0 < t1) (h2 : 0 < ΩD) (n : ℕ) :
    |(strobeM t1 ΩD n : ℝ) * t1 - 2 * π * n / ΩD| ≤ t1 / 2 := by
  have hden : 0 < t1 * ΩD := mul_pos h1 h2
  rw [strobeM_eq_floor t1 ΩD hden]
  set c : ℝ := 2 * π * n / (t1 * ΩD) with hc
  have hfl : (⌊c + 1 / 2⌋ : ℝ) ≤ c + 1 / 2 := Int.floor_le _
  have hfg : c + 1 / 2 - 1 < ⌊c + 1 / 2⌋ := Int.sub_one_lt_floor _
  have hct : c * t1 = 2 * π * n / ΩD := by
    rw [hc]
    field_simp
    ring
  have habs : |(⌊c + 1 / 2⌋ : ℝ) - c| ≤ 1 / 2 := by
    rw [abs_le]
    constructor <;> linarith
  calc |(⌊c + 1 / 2⌋ : ℝ) * t1 - 2 * π * n / ΩD|
      = |((⌊c + 1 / 2⌋ : ℝ) - c) * t1| := by rw [sub_mul, hct]
    _ = |(⌊c + 1 / 2⌋ : ℝ) - c| * |t1| := abs_mul _ _
    _ ≤ (1 / 2) * t1 := by
        rw [abs_of_pos h1]
        exact mul_le_mul_of_nonneg_right habs h1.le
    _ = t1 / 2 := by ring

lemma strobeM_exists_ge (t1 ΩD : ℝ) (h1 : 0 < t1) (h2 : 0 < ΩD) (len : ℕ) :
    ∃ n : ℕ, (len : ℤ) ≤ strobeM t1 ΩD n := by
  have hden : 0 < t1 * ΩD := mul_pos h1 h2
  have h2π : (0 : ℝ) < 2 * π := by positivity
  obtain ⟨n, hn⟩ := exists_nat_ge ((len : ℝ) * (t1 * ΩD) / (2 * π))
  refine ⟨n, ?_⟩
  rw [strobeM_eq_floor t1 ΩD hden, Int.le_floor]
  have key : (len : ℝ) ≤ 2 * π * n / (t1 * ΩD) := by
    rw [le_div_iff₀ hden]
    rw [div_le_iff₀ h2π] at hn
    nlinarith
  push_cast
  linarith

/-! ### Behaviour of the index loop -/

lemma strobeLoop_none_of_lt (t1 ΩD : ℝ) (len : ℕ)
    (h : ∀ n, strobeM t1 ΩD n < (len : ℤ)) :
    ∀ fuel n, strobeLoop t1 ΩD len fuel n = none := by
  intro fuel
  induction fuel with
  | zero => intro n; rfl
  | succ k ih =>
    intro n
    simp only [strobeLoop]
    split_ifs with hc1 hc2
    · rw [ih (n + 1)]; rfl
    · exact absurd hc2 (not_le.mpr (h n))
    · exact ih (n + 1)

/-- If the candidate index first reaches len at counter start+d, the loop
breaks there and returns, in order, every earlier candidate lying strictly
between 1 and len. -/
lemma strobeLoop_eq_of_stop (t1 ΩD : ℝ) (len : ℕ) :
    ∀ (d start fuel : ℕ), d < fuel →
      (∀ k, start ≤ k → k < start + d → strobeM t1 ΩD k < (len : ℤ)) →
      (len : ℤ) ≤ strobeM t1 ΩD (start + d) →
      strobeLoop t1 ΩD len fuel start =
        some (((List.range' start d).map (strobeM t1 ΩD)).filter
          (fun m => decide (1 < m) && decide (m < (len : ℤ)))) := by
  intro d
  induction d with
  | zero =>
    intro start fuel hf hlt hstop
    match fuel, hf with
    | fuel + 1, _ =>
      rw [Nat.add_zero] at hstop
      simp only [strobeLoop]
      have hc1 : ¬ (1 < strobeM t1 ΩD start ∧ strobeM t1 ΩD start < (len : ℤ)) := by
        rintro ⟨-, hc⟩
        omega
      rw [if_neg hc1, if_pos hstop]
      simp
  | succ d ih =>
    intro start fuel hf hlt hstop
    match fuel, hf with
    | fuel + 1, _ =>
      have hm : strobeM t1 ΩD start < (len : ℤ) := hlt start le_rfl (by omega)
      have hrec := ih (start + 1) fuel (by omega)
        (fun k hk1 hk2 => hlt k (by omega) (by omega))
        (by rw [show start + 1 + d = start + (d + 1) by omega]; exact hstop)
      simp only [strobeLoop]
      by_cases h1 : 1 < strobeM t1 ΩD start
      · rw [if_pos ⟨h1, hm⟩, hrec, List.range'_succ]
        simp [List.filter_cons, h1, hm]
      · rw [if_neg (by rintro ⟨hc, -⟩; exact h1 hc), if_neg (not_le.mpr hm), hrec,
          List.range'_succ]
        simp [List.filter_cons, h1]

/-- Everything the loop returns is a candidate index strictly between 1 and
len, generated by some counter value at or after the starting one, and the
returned list is weakly sorted (the candidate is monotone in the counter). -/
lemma strobeLoop_sorted_mem (t1 ΩD : ℝ) (len : ℕ) (hden : 0 < t1 * ΩD) :
    ∀ (fuel n : ℕ) (L : List ℤ), strobeLoop t1 ΩD len fuel n = some L →
      L.Pairwise (· ≤ ·) ∧
        ∀ x ∈ L, 1 < x ∧ x < (len : ℤ) ∧ ∃ k, n ≤ k ∧ x = strobeM t1 ΩD k := by
  intro fuel
  induction fuel with
  | zero =>
    intro n L h
    exact absurd h (by simp [strobeLoop])
  | succ f ih =>
    intro n L h
    simp only [strobeLoop] at h
    split_ifs at h with hc1 hc2
    · obtain ⟨L2, hL2, rfl⟩ : ∃ L2, strobeLoop t1 ΩD len f (n + 1) = some L2 ∧
          L = strobeM t1 ΩD n :: L2 := by
        cases hrec : strobeLoop t1 ΩD len f (n + 1) with
        | none => rw [hrec] at h; simp at h
        | some L2 =>
          rw [hrec] at h
          simp at h
          exact ⟨L2, rfl, h.symm⟩
      obtain ⟨hp, hmem⟩ := ih (n + 1) L2 hL2
      constructor
      · refine List.pairwise_cons.mpr ⟨?_, hp⟩
        intro x hx
        obtain ⟨-, -, k, hk, rfl⟩ := hmem x hx
        exact strobeM_mono t1 ΩD hden (by omega)
      · intro x hx
        rcases List.mem_cons.mp hx with rfl | hx2
        · exact ⟨hc1.1, hc1.2, n, le_rfl, rfl⟩
        · obtain ⟨ha, hb, k, hk, hx3⟩ := hmem x hx2
          exact ⟨ha, hb, k, by omega, hx3⟩
    · cases Option.some.inj h
      simp
    · obtain ⟨hp, hmem⟩ := ih (n + 1) L h
      refine ⟨hp, ?_⟩
      intro x hx
      obtain ⟨ha, hb, k, hk, hx2⟩ := hmem x hx
      exact ⟨ha, hb, k, by omega, hx2⟩

/-- The index loop with a positive divisor terminates, breaking at the first
counter n0 whose candidate reaches len, and returns the in-range candidates
of all earlier counters in order. -/
lemma strobeLoop_terminates_char (t1 ΩD : ℝ) (len : ℕ)
    (h1 : 0 < t1) (h2 : 0 < ΩD) :
    ∃ n0 fuel L, strobeLoop t1 ΩD len fuel 0 = some L ∧
      (len : ℤ) ≤ strobeM t1 ΩD n0 ∧
      (∀ k, k < n0 → strobeM t1 ΩD k < (len : ℤ)) ∧
      L = ((List.range n0).map (strobeM t1 ΩD)).filter
        (fun m => decide (1 < m) && decide (m < (len : ℤ))) := by
  classical
  have hex : ∃ n, (len : ℤ) ≤ strobeM t1 ΩD n := strobeM_exists_ge t1 ΩD h1 h2 len
  refine ⟨Nat.find hex, Nat.find hex + 1,
    ((List.range (Nat.find hex)).map (strobeM t1 ΩD)).filter
      (fun m => decide (1 < m) && decide (m < (len : ℤ))), ?_, Nat.find_spec hex,
    ?_, rfl⟩
  · have hchar := strobeLoop_eq_of_stop t1 ΩD len (Nat.find hex) 0 (Nat.find hex + 1)
      (by omega)
      (fun k hk1 hk2 => by
        have := Nat.find_min hex (show k < Nat.find hex by omega)
        omega)
      (by simpa using Nat.find_spec hex)
    rw [hchar, List.range_eq_range']
  · intro k hk
    have := Nat.find_min hex hk
    omega

/-! ### Concrete evaluations of the index loop -/

lemma floor_int_div_real (a : ℤ) (b : ℕ) : ⌊(a : ℝ) / (b : ℝ)⌋ = a / (b : ℤ) := by
  have hq : ((a : ℝ)) / (b : ℝ) = ((a / b : ℚ) : ℝ) := by push_cast; ring
  rw [hq, Rat.floor_cast, Rat.floor_intCast_div_natCast]

lemma strobeM_of_mul_eq_two_pi (t1 ΩD : ℝ) (h : t1 * ΩD = 2 * π) (n : ℕ) :
    strobeM t1 ΩD n = n := by
  have hpi := Real.pi_pos
  have hden : 0 < t1 * ΩD := by rw [h]; positivity
  rw [strobeM_eq_floor t1 ΩD hden, h]
  have harg : 2 * π * n / (2 * π) + 1 / 2 =
      (((n : ℤ) * 2 + 1 : ℤ) : ℝ) / ((2 : ℕ) : ℝ) := by
    push_cast
    field_simp
  rw [harg, floor_int_div_real]
  omega

lemma strobeM_of_mul_eq_four_pi (t1 ΩD : ℝ) (h : t1 * ΩD = 4 * π) (n : ℕ) :
    strobeM t1 ΩD n = ((n : ℤ) + 1) / 2 := by
  have hpi := Real.pi_pos
  have hden : 0 < t1 * ΩD := by rw [h]; positivity
  rw [strobeM_eq_floor t1 ΩD hden, h]
  have harg : 2 * π * n / (4 * π) + 1 / 2 =
      (((n : ℤ) + 1 : ℤ) : ℝ) / ((2 : ℕ) : ℝ) := by
    push_cast
    field_simp
    ring
  rw [harg, floor_int_div_real]
  norm_num

/-- On a five-entry grid with t[1]*ΩD = 2*pi (one drive period per grid
step) the loop returns [2, 3, 4]. -/
lemma strobeLoop_compute_two_pi (t1 ΩD : ℝ) (h : t1 * ΩD = 2 * π) :
    strobeLoop t1 ΩD 5 12 0 = some [2, 3, 4] := by
  have hlt : ∀ k, 0 ≤ k → k < 0 + 5 → strobeM t1 ΩD k < ((5 : ℕ) : ℤ) := by
    intro k hk1 hk2
    rw [strobeM_of_mul_eq_two_pi t1 ΩD h]
    omega
  have hstop : ((5 : ℕ) : ℤ) ≤ strobeM t1 ΩD (0 + 5) := by
    rw [strobeM_of_mul_eq_two_pi t1 ΩD h]
  rw [strobeLoop_eq_of_stop t1 ΩD 5 5 0 12 (by omega) hlt hstop,
    List.map_congr_left (fun k _ => strobeM_of_mul_eq_two_pi t1 ΩD h k)]
  decide

/-- On a five-entry grid with t[1]*ΩD = 4*pi (two drive periods per grid
step) the loop returns [2, 2, 3, 3, 4, 4]: repeated indices. -/
lemma strobeLoop_compute_four_pi (t1 ΩD : ℝ) (h : t1 * ΩD = 4 * π) :
    strobeLoop t1 ΩD 5 12 0 = some [2, 2, 3, 3, 4, 4] := by
  have hlt : ∀ k, 0 ≤ k → k < 0 + 9 → strobeM t1 ΩD k < ((5 : ℕ) : ℤ) := by
    intro k hk1 hk2
    rw [strobeM_of_mul_eq_four_pi t1 ΩD h]
    omega
  have hstop : ((5 : ℕ) : ℤ) ≤ strobeM t1 ΩD (0 + 9) := by
    rw [strobeM_of_mul_eq_four_pi t1 ΩD h]
    norm_num
  rw [strobeLoop_eq_of_stop t1 ΩD 5 9 0 12 (by omega) hlt hstop,
    List.map_congr_left (fun k _ => strobeM_of_mul_eq_four_pi t1 ΩD h k)]
  decide

/-! ### The stroboscopic sampler claims -/

/-- C3 counterexample: on the grid [1, 2, 3, 4, 5] (spacing 1, but not
starting at 0) with ΩD = 2*pi, the code divides by the raw value t[1] = 2
and returns [2, 2, 3, 3, 4, 4], while the claimed formula based on the
spacing t[1]-t[0] = 1 yields [2, 3, 4]: the result is not the same for
grids that do not start at t[0] = 0. -/
theorem strobe_raw_t1_counterexample :
    inPhase [1, 2, 3, 4, 5] (2 * π) 12 = some [2, 2, 3, 3, 4, 4] ∧
      strobeLoop ((2 : ℝ) - 1) (2 * π) 5 12 0 = some [2, 3, 4] ∧
      ([2, 2, 3, 3, 4, 4] : List ℤ) ≠ [2, 3, 4] := by
  refine ⟨?_, ?_, by decide⟩
  · show strobeLoop 2 (2 * π) ([1, 2, 3, 4, 5] : List ℝ).length 12 0 = _
    have hlen : ([1, 2, 3, 4, 5] : List ℝ).length = 5 := by simp
    rw [hlen]
    exact strobeLoop_compute_four_pi 2 (2 * π) (by ring)
  · have h21 : (2 : ℝ) - 1 = 1 := by norm_num
    rw [h21]
    exact strobeLoop_compute_two_pi 1 (2 * π) (one_mul _)

/-- C3 amended: for a grid with t[1] > 0 and ΩD > 0 the loop terminates at
the first counter n0 whose candidate m(n) = int(2*pi*n/(t[1]*ΩD) + 0.5)
reaches len(t), and returns exactly the earlier candidates with
1 < m < len(t), in generation order; the divisor uses the raw value t[1]
(equal to the spacing only when t[0] = 0), not t[1]-t[0]. -/
theorem strobe_code_characterization (t0 t1 : ℝ) (rest : List ℝ) (ΩD : ℝ)
    (h1 : 0 < t1) (h2 : 0 < ΩD) :
    ∃ n0 fuel L, inPhase (t0 :: t1 :: rest) ΩD fuel = some L ∧
      (((t0 :: t1 :: rest).length : ℕ) : ℤ) ≤ strobeM t1 ΩD n0 ∧
      (∀ k, k < n0 → strobeM t1 ΩD k < (((t0 :: t1 :: rest).length : ℕ) : ℤ)) ∧
      L = ((List.range n0).map (strobeM t1 ΩD)).filter
        (fun m => decide (1 < m) &&
          decide (m < (((t0 :: t1 :: rest).length : ℕ) : ℤ))) := by
  obtain ⟨n0, fuel, L, hL, hstop, hmin, hform⟩ :=
    strobeLoop_terminates_char t1 ΩD (t0 :: t1 :: rest).length h1 h2
  exact ⟨n0, fuel, L, hL, hstop, hmin, hform⟩

/-- Witness for C3 amended on the grid [0, 1, 2, 3] with ΩD = 2*pi. -/
theorem strobe_code_characterization_witness :
    (0 : ℝ) < 1 ∧ (0 : ℝ) < 2 * π ∧
      ∃ n0 fuel L, inPhase ((0 : ℝ) :: (1 : ℝ) :: [2, 3]) (2 * π) fuel = some L ∧
        ((((0 : ℝ) :: (1 : ℝ) :: [2, 3] : List ℝ).length : ℕ) : ℤ) ≤
          strobeM 1 (2 * π) n0 ∧
        (∀ k, k < n0 → strobeM 1 (2 * π) k <
          ((((0 : ℝ) :: (1 : ℝ) :: [2, 3] : List ℝ).length : ℕ) : ℤ)) ∧
        L = ((List.range n0).map (strobeM 1 (2 * π))).filter
          (fun m => decide (1 < m) &&
            decide (m < ((((0 : ℝ) :: (1 : ℝ) :: [2, 3] : List ℝ).length : ℕ) : ℤ))) := by
  have hpi := Real.pi_pos
  exact ⟨by norm_num, by linarith,
    strobe_code_characterization 0 1 [2, 3] (2 * π) (by norm_num) (by linarith)⟩

/-- C4 counterexample: called with the negative driving frequency
ΩD = -1 on the grid [0, 1, 2], the loop raises no error at all: it
diverges (the candidate index never reaches len, so the break is never
executed), contradicting the claimed InvalidInput failure. -/
theorem strobe_nonpos_omega_counterexample :
    strobeDiverges [0, 1, 2] (-1) := by
  intro fuel
  show strobeLoop 1 (-1) ([0, 1, 2] : List ℝ).length fuel 0 = none
  apply strobeLoop_none_of_lt
  intro n
  have hm := strobeM_le_zero 1 (-1) (by norm_num) n
  simp only [List.length_cons, List.length_nil]
  omega

/-- C4 amended: there is no validation of ΩD.  For any grid (with at least
two entries and t[1] > 0) and any ΩD < 0 the index loop never terminates:
no fuel reaches the break, and no error is reported. -/
theorem strobe_negative_omega_no_error (t0 t1 : ℝ) (rest : List ℝ) (ΩD : ℝ)
    (h1 : 0 < t1) (h2 : ΩD < 0) (fuel : ℕ) :
    inPhase (t0 :: t1 :: rest) ΩD fuel = none := by
  show strobeLoop t1 ΩD (t0 :: t1 :: rest).length fuel 0 = none
  apply strobeLoop_none_of_lt
  intro n
  have hm := strobeM_le_zero t1 ΩD (mul_neg_of_pos_of_neg h1 h2) n
  have hlen : (1 : ℤ) ≤ (((t0 :: t1 :: rest).length : ℕ) : ℤ) := by
    simp only [List.length_cons]
    push_cast
    omega
  omega

/-- Witness for C4 amended at the grid [0, 1, 2] with ΩD = -2, fuel 7. -/
theorem strobe_negative_omega_no_error_witness :
    (0 : ℝ) < 1 ∧ (-2 : ℝ) < 0 ∧
      inPhase ((0 : ℝ) :: (1 : ℝ) :: [2]) (-2) 7 = none :=
  ⟨by norm_num, by norm_num,
    strobe_negative_omega_no_error 0 1 [2] (-2) (by norm_num) (by norm_num) 7⟩

/-- C5 counterexample: on the grid [0, 1, 2, 3, 4] with ΩD = 4*pi
(2*pi/(dt*ΩD) = 1/2 < 1) the returned index list [2, 2, 3, 3, 4, 4] is
not strictly increasing, and at the rounding tie (index m = 2 generated by
n = 3) the distance |t[2] - 2*pi*3/ΩD| equals dt/2 = 1/2 exactly, so the
claimed strict bound fails as well. -/
theorem strobe_not_strictly_increasing_counterexample :
    inPhase [0, 1, 2, 3, 4] (4 * π) 12 = some [2, 2, 3, 3, 4, 4] ∧
      ¬ ([2, 2, 3, 3, 4, 4] : List ℤ).Pairwise (· < ·) ∧
      ¬ (|(2 : ℝ) * 1 - 2 * π * 3 / (4 * π)| < 1 / 2) := by
  refine ⟨?_, by decide, ?_⟩
  · show strobeLoop 1 (4 * π) ([0, 1, 2, 3, 4] : List ℝ).length 12 0 = _
    have hlen : ([0, 1, 2, 3, 4] : List ℝ).length = 5 := by simp
    rw [hlen]
    exact strobeLoop_compute_four_pi 1 (4 * π) (one_mul _)
  · have hpi := Real.pi_ne_zero
    have h32 : 2 * π * 3 / (4 * π) = 3 / 2 := by
      field_simp
      ring
    rw [h32]
    norm_num
    rw [abs_of_nonneg (by norm_num : (0 : ℝ) ≤ 1 / 2)]

/-- C5 amended: for t[1] > 0 and ΩD > 0, every list the loop returns is
weakly sorted (an index may repeat when 2*pi/(t[1]*ΩD) < 1), and each
returned index m, generated by some counter n, lies strictly between 1 and
len and satisfies the non-strict tolerance |m*t[1] - 2*pi*n/ΩD| <= t[1]/2
(with equality at rounding ties), where m*t[1] is the grid time t[m] of a
uniform grid starting at 0 with spacing t[1]. -/
theorem strobe_sorted_tolerance (t1 ΩD : ℝ) (len fuel : ℕ) (L : List ℤ)
    (h1 : 0 < t1) (h2 : 0 < ΩD)
    (hL : strobeLoop t1 ΩD len fuel 0 = some L) :
    L.Pairwise (· ≤ ·) ∧ ∀ x ∈ L, 1 < x ∧ x < (len : ℤ) ∧
      ∃ n : ℕ, x = strobeM t1 ΩD n ∧
        |(x : ℝ) * t1 - 2 * π * n / ΩD| ≤ t1 / 2 := by
  have hden := mul_pos h1 h2
  obtain ⟨hp, hmem⟩ := strobeLoop_sorted_mem t1 ΩD len hden fuel 0 L hL
  refine ⟨hp, ?_⟩
  intro x hx
  obtain ⟨ha, hb, k, -, rfl⟩ := hmem x hx
  exact ⟨ha, hb, k, rfl, strobeM_bound t1 ΩD h1 h2 k⟩

/-- Witness for C5 amended on the loop run with t1 = 1, ΩD = 4*pi. -/
theorem strobe_sorted_tolerance_witness :
    strobeLoop 1 (4 * π) 5 12 0 = some [2, 2, 3, 3, 4, 4] ∧
      (([2, 2, 3, 3, 4, 4] : List ℤ).Pairwise (· ≤ ·) ∧
        ∀ x ∈ ([2, 2, 3, 3, 4, 4] : List ℤ), 1 < x ∧ x < ((5 : ℕ) : ℤ) ∧
          ∃ n : ℕ, x = strobeM 1 (4 * π) n ∧
            |(x : ℝ) * 1 - 2 * π * n / (4 * π)| ≤ 1 / 2) := by
  have hpi := Real.pi_pos
  have hc := strobeLoop_compute_four_pi 1 (4 * π) (one_mul _)
  refine ⟨hc, ?_⟩
  have h := strobe_sorted_tolerance 1 (4 * π) 5 12 [2, 2, 3, 3, 4, 4]
    (by norm_num) (by positivity) hc
  simpa using h

/-- C9 counterexample: the grid [-5, -4, -3] has positive spacing 1 and
ΩD = 2*pi > 0, yet the loop never terminates: the code divides by the raw
value t[1] = -4, so the candidate index never grows to len. -/
theorem strobe_positive_spacing_diverges_counterexample :
    strobeDiverges [-5, -4, -3] (2 * π) ∧
      (0 : ℝ) < (-4 : ℝ) - (-5) ∧ (0 : ℝ) < 2 * π := by
  have hpi := Real.pi_pos
  refine ⟨?_, by norm_num, by linarith⟩
  intro fuel
  show strobeLoop (-4) (2 * π) ([-5, -4, -3] : List ℝ).length fuel 0 = none
  apply strobeLoop_none_of_lt
  intro n
  have hm := strobeM_le_zero (-4) (2 * π) (by nlinarith) n
  simp only [List.length_cons, List.length_nil]
  omega

/-- C9 amended: the loop terminates whenever the raw value t[1] and ΩD are
both positive (the candidate index then grows without bound, so it reaches
len); positive spacing alone is not enough, since the divisor is t[1]
itself. -/
theorem strobe_terminates_pos (t0 t1 : ℝ) (rest : List ℝ) (ΩD : ℝ)
    (h1 : 0 < t1) (h2 : 0 < ΩD) :
    ∃ fuel L, inPhase (t0 :: t1 :: rest) ΩD fuel = some L := by
  obtain ⟨n0, fuel, L, hL, -, -, -⟩ :=
    strobeLoop_terminates_char t1 ΩD (t0 :: t1 :: rest).length h1 h2
  exact ⟨fuel, L, hL⟩

/-- Witness for C9 amended at the grid [0, 2, 4] with ΩD = 1. -/
theorem strobe_terminates_pos_witness :
    (0 : ℝ) < 2 ∧ (0 : ℝ) < 1 ∧
      ∃ fuel L, inPhase ((0 : ℝ) :: (2 : ℝ) :: [4]) 1 fuel = some L :=
  ⟨by norm_num, by norm_num,
    strobe_terminates_pos 0 2 [4] 1 (by norm_num) (by norm_num)⟩

/-! ### The Lyapunov-fit pipeline -/

lemma getD_replicate (c : ℝ) (len n : ℕ) (h : n < len) :
    (List.replicate len c).getD n 0 = c := by
  rw [List.getD_eq_getElem?_getD, List.getElem?_replicate]
  simp [h]

/-- A constant sequence has no strict local maxima. -/
lemma argrelmax_replicate (c : ℝ) (len : ℕ) :
    argrelmax (List.replicate len c) = [] := by
  unfold argrelmax
  rw [List.filter_eq_nil_iff]
  intro n hn
  simp only [Bool.and_eq_true, decide_eq_true_eq, List.length_replicate]
  intro hX
  obtain ⟨⟨⟨h1, h2⟩, h3⟩, h4⟩ := hX
  have e1 : (List.replicate len c).getD (n - 1) 0 = c :=
    getD_replicate c len _ (by omega)
  have e2 : (List.replicate len c).getD n 0 = c :=
    getD_replicate c len _ (by omega)
  rw [e1, e2] at h3
  exact lt_irrefl c h3

lemma zipWith_abs_self (θ : List ℝ) :
    List.zipWith (fun a b => |a - b|) θ θ = List.replicate θ.length 0 := by
  induction θ with
  | nil => rfl
  | cons a r ih => simp [ih, List.replicate_succ]

/-- With two identical input trajectories the difference signal is
identically zero, the extrema index list is empty, and the fit primitive is
still invoked, on an empty data set. -/
lemma lyapFit_identical (t θ : List ℝ) (fit : List (ℝ × ℝ) → ℝ × ℝ) :
    lyapFit t θ θ fit = fit [] := by
  simp only [lyapFit]
  rw [zipWith_abs_self, List.map_replicate, argrelmax_replicate]
  rfl

/-- C6 counterexample: calling the pipeline on two identical trajectories
does not produce any error: the curve-fit black box is invoked on an empty
data set and its result is returned as is.  The probe fit function records
the number of data points it received (zero) in its first component. -/
theorem lyapunov_identical_fit_counterexample :
    lyapFit [0, 1, 2, 3] [1, 2, 3, 4] [1, 2, 3, 4]
      (fun L => ((L.length : ℝ), 37)) = (0, 37) := by
  rw [lyapFit_identical]
  simp

/-- C6 amended: the source performs no degeneracy or cardinality check.
With identical trajectories (fewer than two local maxima: in fact zero),
the local-maxima index list is empty and the external curve-fitting
primitive is invoked unconditionally on the empty data set; no typed
InsufficientData or NumericDegenerate error exists anywhere. -/
theorem lyapunov_no_degenerate_check (t θ : List ℝ) (fit : List (ℝ × ℝ) → ℝ × ℝ) :
    argrelmax ((List.zipWith (fun a b => |a - b|) θ θ).map Real.log) = [] ∧
      lyapFit t θ θ fit = fit [] := by
  constructor
  · rw [zipWith_abs_self, List.map_replicate]
    exact argrelmax_replicate _ _
  · exact lyapFit_identical t θ fit

end ChaoticPendulum
